import Mathlib

/-!
Shallow embedding of the PGE Maximo Work Actuals Export script
(src/pge_test_script.js) and verification of its specification claims.

The script performs an incremental export of approved work-time entries.
Records stream, pre-sorted by the grouping fields, through
processExportRecords; on every change of the six grouping fields the
accumulated WorkActualsData table is written out and a fresh table is
started.  Records are filtered by pay code and by the first character of
the field work order (LD1), the effective rate is zeroed for employees
without a union code, and records are summed per match key by
WorkActualsData_addData, which for double-rate pay codes doubles the rate
and recursively adds a compensating WORKED_ALLOCATED_REG record.

Numeric fields (HOURS, UNIT9, EFF_RATE) are modelled as integers; record
field access in the host is case-insensitive, so Record.eff_rate and
Record.EFF_RATE denote one field here.  LD1 is modelled as Option String:
a missing field work order makes Record.ld1.substr(0,1) throw, which the
per-record catch turns into a rollbackRecord.
-/

/-- Source line 37: pay codes that trigger double rate. -/
def DOUBLE_RATE_PAY_CODES : List String := ["GOLDEN_TIME", "HIGH_TIME", "PREMIUM_UPGRADE_PAY"]

/-- Source line 42: accepted first characters of an exported FWO. -/
def VALID_FWO_PREFIXES : List String := ["M", "F"]

/-- Membership helper used throughout the script (JS_UTIL inArray). -/
def inArray (xs : List String) (s : String) : Bool := xs.contains s

/-- One raw export record as consumed by processExportRecords.  Fields keep
the source names; LD1 is the field work order, LD8 the job code, UNIT9 the
in-transit hours. -/
structure ExpRecord where
  DISPLAY_EMPLOYEE : String
  WORK_DT : String
  LD1 : Option String
  PAY_CODE : String
  EFF_RATE : Int
  LD8 : String
  HOURS : Int
  UNIT9 : Int
deriving DecidableEq, Repr

/-- The six GROUP_FIELDS of source line 39, as a structured key.  The source
serialises them into a pipe-separated string (WorkActualsData_getMatchKey);
the structured form keeps the same identification of records. -/
structure MatchKey where
  emp : String
  workDt : String
  ld1 : Option String
  payCode : String
  effRate : Int
  ld8 : String
deriving DecidableEq, Repr

/-- WorkActualsData_getMatchKey (source lines 94 to 99). -/
def matchKey (r : ExpRecord) : MatchKey :=
  ⟨r.DISPLAY_EMPLOYEE, r.WORK_DT, r.LD1, r.PAY_CODE, r.EFF_RATE, r.LD8⟩

/-- One summarised entry of the WorkActualsData lookup table
(initData of source lines 107 to 116). -/
structure AggData where
  fwo : Option String
  emplid : String
  workDt : String
  payCode : String
  rate : Int
  jobCode : String
  inTransit : Int
  hours : Int
deriving DecidableEq, Repr

/-- Source lines 107 to 116: the fresh entry created for a new match key.
The rate is doubled for the double-rate pay codes and never touched again. -/
def initData (r : ExpRecord) : AggData :=
  { fwo := r.LD1, emplid := r.DISPLAY_EMPLOYEE, workDt := r.WORK_DT, payCode := r.PAY_CODE,
    rate := if inArray DOUBLE_RATE_PAY_CODES r.PAY_CODE then 2 * r.EFF_RATE else r.EFF_RATE,
    jobCode := r.LD8, inTransit := 0, hours := 0 }

/-- The LookupTable of WorkActualsData, in key insertion order. -/
abbrev Table := List (MatchKey × AggData)

/-- LookupTable.containsKey. -/
def containsKey (t : Table) (k : MatchKey) : Bool := t.any (fun p => p.1 == k)

/-- The non-recursive part of WorkActualsData_addData (source lines 104 to
122): create the entry for the key of the record when absent, then add
HOURS minus UNIT9 to its hours and UNIT9 to its in-transit total. -/
def addOne (t : Table) (r : ExpRecord) : Table :=
  let k := matchKey r
  let t1 := if containsKey t k then t else t ++ [(k, initData r)]
  t1.map (fun p =>
    if p.1 == k then
      (p.1, { p.2 with hours := p.2.hours + (r.HOURS - r.UNIT9),
                       inTransit := p.2.inTransit + r.UNIT9 })
    else p)

/-- The compensating record built for a double-rate pay code (source lines
127 to 133): same group fields, pay code WORKED_ALLOCATED_REG, hours and
transit time negated net. -/
def adjRecord (r : ExpRecord) : ExpRecord :=
  { DISPLAY_EMPLOYEE := r.DISPLAY_EMPLOYEE, WORK_DT := r.WORK_DT, LD1 := r.LD1,
    PAY_CODE := "WORKED_ALLOCATED_REG", EFF_RATE := r.EFF_RATE, LD8 := r.LD8,
    HOURS := -(r.HOURS - r.UNIT9), UNIT9 := -r.UNIT9 }

/-- WorkActualsData_addData (source lines 101 to 136), including the
recursive call this.addData(adjRecord) for double-rate pay codes. -/
def addData (t : Table) (r : ExpRecord) : Table :=
  let t1 := addOne t r
  if inArray DOUBLE_RATE_PAY_CODES r.PAY_CODE then addData t1 (adjRecord r) else t1
termination_by (if inArray DOUBLE_RATE_PAY_CODES r.PAY_CODE then 1 else 0)
decreasing_by
  simp_all [adjRecord, inArray, DOUBLE_RATE_PAY_CODES]

/-- WorkActualsData_writeData (source lines 138 to 154): emit every table
entry whose summed hours are non-zero, in key insertion order.  Number and
date formatting is abstracted away; a row carries the summarised values. -/
def writeData (t : Table) : List AggData :=
  (t.filter (fun p => p.2.hours != 0)).map (fun p => p.2)

/-- The union code map built by buildUnionCodeMap (source lines 263 to
280): display employee to union code, as an association list. -/
abbrev UnionCodeMap := List (String × String)

/-- Lookup in the union code map; none when the employee is absent. -/
def lookupEmp (m : UnionCodeMap) (e : String) : Option String :=
  (m.find? (fun p => p.1 == e)).map (fun p => p.2)

/-- JS_UTIL isBlank on the looked-up union code: true for a missing entry
and for an empty or whitespace-only string (what trimming to "" means). -/
def isBlank : Option String → Bool
  | none => true
  | some s => s.data.all (fun c => c.isWhitespace)

/-- isUnionCodeNull (source lines 288 to 295).  When the union code map was
never constructed the function throws, modelled as the error case. -/
def isUnionCodeNull (um : Option UnionCodeMap) (e : String) : Except String Bool :=
  match um with
  | none => .error "Union Code mapping is not available"
  | some m => .ok (isBlank (lookupEmp m e))

/-- What the body of the per-record try block (source lines 227 to 241)
decides for one record after the grouping check: skip it (a continue),
fail (an exception reaches the per-record catch), or keep a possibly
rate-zeroed record and pass it to addData. -/
inductive StepAction where
  | skip : StepAction
  | fail : StepAction
  | keep : ExpRecord → StepAction
deriving DecidableEq, Repr

/-- Record.ld1.substr(0, 1).toUpperCase() of source line 231: the first
character of the FWO, upper-cased, as a string. -/
def substrFirstUpper (s : String) : String :=
  String.mk ((s.data.take 1).map Char.toUpper)

/-- Source lines 227 to 239 in order: the pay code set test, the FWO prefix
test on Record.ld1.substr(0,1).toUpperCase() (throwing when LD1 is
missing), and the union code test zeroing Record.eff_rate. -/
def classifyRecord (payCodeSet : List String) (um : Option UnionCodeMap)
    (r : ExpRecord) : StepAction :=
  if !inArray payCodeSet r.PAY_CODE then .skip
  else
    match r.LD1 with
    | none => .fail
    | some fwo =>
      if !inArray VALID_FWO_PREFIXES (substrFirstUpper fwo) then .skip
      else
        match isUnionCodeNull um r.DISPLAY_EMPLOYEE with
        | .error _ => .fail
        | .ok true => .keep { r with EFF_RATE := 0 }
        | .ok false => .keep r

/-- The loop state of processExportRecords: curData (the group fields of
the record that opened the current epoch), the current WorkActualsData
table, the rows written so far, and the records handed to rollbackRecord. -/
structure PState where
  cur : Option MatchKey
  table : Table
  rows : List AggData
  rolled : List ExpRecord
deriving DecidableEq, Repr

/-- Loop entry state: curData all null, fresh WorkActualsData. -/
def initState : PState := ⟨none, [], [], []⟩

/-- Source lines 213 to 225: when any group field changed, write the summed
records, start a fresh WorkActualsData and remember the new group values. -/
def flushIf (st : PState) (r : ExpRecord) : PState :=
  if st.cur == some (matchKey r) then st
  else { st with rows := st.rows ++ writeData st.table, table := [], cur := some (matchKey r) }

/-- Source lines 227 to 249: act on the classification; a failing record is
rolled back by the per-record catch and the loop continues. -/
def bodyStep (payCodeSet : List String) (um : Option UnionCodeMap)
    (st : PState) (r : ExpRecord) : PState :=
  match classifyRecord payCodeSet um r with
  | .skip => st
  | .fail => { st with rolled := st.rolled ++ [r] }
  | .keep rr => { st with table := addData st.table rr }

/-- One iteration of the record loop of processExportRecords. -/
def step (payCodeSet : List String) (um : Option UnionCodeMap)
    (st : PState) (r : ExpRecord) : PState :=
  bodyStep payCodeSet um (flushIf st r) r

/-- processExportRecords (source lines 206 to 253) on an already computed
and sorted batch: fold the loop over the records, then write the final
table (line 252).  Returns the emitted rows and the rolled-back records. -/
def processExportRecords (payCodeSet : List String) (um : Option UnionCodeMap)
    (rs : List ExpRecord) : List AggData × List ExpRecord :=
  let fin := rs.foldl (step payCodeSet um) initState
  (fin.rows ++ writeData fin.table, fin.rolled)

/-- A calendar date as used by the WFSDate host class. -/
structure WFSDate where
  y : Int
  m : Int
  d : Int
deriving DecidableEq, Repr

/-- Days in a month, with the Gregorian leap rule. -/
def daysInMonth (y m : Int) : Int :=
  if m = 2 then (if y % 4 = 0 ∧ (y % 100 ≠ 0 ∨ y % 400 = 0) then 29 else 28)
  else if m = 4 ∨ m = 6 ∨ m = 9 ∨ m = 11 then 30
  else 31

/-- WFSDate.addMonths: shift by whole months, clamping the day to the
length of the target month. -/
def addMonths (dt : WFSDate) (n : Int) : WFSDate :=
  let idx := dt.y * 12 + (dt.m - 1) + n
  let y := idx.ediv 12
  let m := idx.emod 12 + 1
  ⟨y, m, min dt.d (daysInMonth y m)⟩

/-- The day after a date (what the spec calls tomorrow). -/
def nextDay (dt : WFSDate) : WFSDate :=
  if dt.d < daysInMonth dt.y dt.m then ⟨dt.y, dt.m, dt.d + 1⟩
  else if dt.m < 12 then ⟨dt.y, dt.m + 1, 1⟩
  else ⟨dt.y + 1, 1, 1⟩

/-- The policy profile period status consulted by findCurrentPeriod. -/
structure PeriodStatus where
  PPG : String
  CurPrdBeg : WFSDate
deriving DecidableEq, Repr

/-- A WFSDateRange as produced by findCurrentPeriod. -/
structure WFSDateRange where
  startDate : WFSDate
  endDate : WFSDate
deriving DecidableEq, Repr

/-- findCurrentPeriod (source lines 309 to 318): for the PGE policy profile
group the range runs from the current period begin minus three months to
today plus one month; for any other group ppBegin stays undefined and the
call fails. -/
def findCurrentPeriod (st : PeriodStatus) (today : WFSDate) : Option WFSDateRange :=
  if st.PPG = "PGE" then some ⟨addMonths st.CurPrdBeg (-3), addMonths today 1⟩
  else none

/-- The diff parameters of source lines 62 to 85 that depend on the date
window (the remaining members are constants of the script). -/
structure DiffParms where
  startDate : WFSDate
  endDate : WFSDate
  negateNumericFields : Bool
  retractOnTerm : Bool
  periodPeriodMode : String
  gracePeriod : Int
  logData : Bool
deriving DecidableEq, Repr

/-- INCR_EXPORT_DIFF_PARMS (source lines 62 to 85), built from
findCurrentPeriod.  NEGATE_FIELDS and RETRACT_ON_TERM are true, the grace
period is 1440 minutes. -/
def INCR_EXPORT_DIFF_PARMS (st : PeriodStatus) (today : WFSDate) : Option DiffParms :=
  (findCurrentPeriod st today).map (fun r =>
    { startDate := r.startDate, endDate := r.endDate,
      negateNumericFields := true, retractOnTerm := true,
      periodPeriodMode := "PRIOR_PERIOD_ON_CHANGE", gracePeriod := 1440, logData := true })

/-- The maximal contiguous runs of equal match keys in a record stream.
For a stream sorted by the six group fields these are exactly the groups
of the composite key. -/
def runsOf : List ExpRecord → List (List ExpRecord)
  | [] => []
  | [r] => [[r]]
  | r :: s :: rest =>
    match runsOf (s :: rest) with
    | run :: more => if matchKey r = matchKey s then (r :: run) :: more else [r] :: run :: more
    | [] => [[r]]

/-- Net hours of a run: the sum of HOURS minus UNIT9, following the spec
wording for the aggregate netHours. -/
def netSum (run : List ExpRecord) : Int := (run.map (fun r => r.HOURS - r.UNIT9)).sum

/-- Summed in-transit hours of a run. -/
def transitSum (run : List ExpRecord) : Int := (run.map (fun r => r.UNIT9)).sum

/-- The aggregate the spec predicts for a whole run starting at r0. -/
def runAgg (r0 : ExpRecord) (run : List ExpRecord) : AggData :=
  { initData r0 with hours := netSum run, inTransit := transitSum run }

/-- Whether an emitted row belongs to a composite key: its identifying
fields (employee, work date, FWO, pay code, job code) agree with the key. -/
def rowMatches (a : AggData) (k : MatchKey) : Bool :=
  a.emplid == k.emp && a.workDt == k.workDt && a.fwo == k.ld1 &&
    a.payCode == k.payCode && a.jobCode == k.ld8

/-- The key of each run, in stream order. -/
def runHeadKeys (rs : List ExpRecord) : List MatchKey :=
  (runsOf rs).filterMap (fun run => run.head?.map matchKey)

/-- A stream whose runs have pairwise distinct keys; any stream sorted by
the six group fields satisfies this. -/
def WellSorted (rs : List ExpRecord) : Prop := (runHeadKeys rs).Nodup

instance (rs : List ExpRecord) : Decidable (WellSorted rs) := by
  unfold WellSorted; infer_instance

/-- Total hours held in a table. -/
def totalHours (t : Table) : Int := (t.map (fun p => p.2.hours)).sum

/-- Whether a record makes the per-record try block throw. -/
def recFails (payCodeSet : List String) (um : Option UnionCodeMap) (r : ExpRecord) : Bool :=
  classifyRecord payCodeSet um r == StepAction.fail

/-- The record that reaches addData, when one does. -/
def keptRecord (payCodeSet : List String) (um : Option UnionCodeMap) (r : ExpRecord) :
    Option ExpRecord :=
  match classifyRecord payCodeSet um r with
  | .keep rr => some rr
  | _ => none

/-- The effect of one record on the table of its epoch. -/
def epochStep (payCodeSet : List String) (um : Option UnionCodeMap)
    (t : Table) (r : ExpRecord) : Table :=
  match classifyRecord payCodeSet um r with
  | .keep rr => addData t rr
  | _ => t

/-- Sample double-rate record used by concrete counterexamples. -/
def recGold : ExpRecord := ⟨"E1", "2024-01-02", some "M55", "GOLDEN_TIME", 10, "JC1", 8, 2⟩

/-- Sample union code map: both employees carry a union code. -/
def umap1 : UnionCodeMap := [("E1", "U1"), ("E2", "U2")]

/-- Sample valid pay code set containing the codes used in examples. -/
def pcsAll : List String := ["REG", "GOLDEN_TIME", "WORKED_ALLOCATED_REG"]

/-- The keys of a table, in insertion order. -/
def keys (t : Table) : List MatchKey := t.map Prod.fst

/-- The rows produced by one epoch (one maximal equal-key run). -/
def epochRows (pcs : List String) (um : Option UnionCodeMap) (run : List ExpRecord) :
    List AggData :=
  writeData (run.foldl (epochStep pcs um) [])

/-- The key of the compensating record spawned for key k. -/
def wKey (k : MatchKey) : MatchKey :=
  ⟨k.emp, k.workDt, k.ld1, "WORKED_ALLOCATED_REG", k.effRate, k.ld8⟩

/-- The mutation that source lines 120 to 122 apply to the table entry of
the key of the record. -/
def updAgg (a : AggData) (r : ExpRecord) : AggData :=
  { a with hours := a.hours + (r.HOURS - r.UNIT9), inTransit := a.inTransit + r.UNIT9 }

/-- A record passes the pay code and FWO prefix filters and keeps its rate:
exactly the records that reach addData unchanged. -/
def passesFilters (payCodeSet : List String) (m : UnionCodeMap) (r : ExpRecord) : Bool :=
  inArray payCodeSet r.PAY_CODE &&
    (match r.LD1 with
     | none => false
     | some fwo => inArray VALID_FWO_PREFIXES (substrFirstUpper fwo)) &&
    !isBlank (lookupEmp m r.DISPLAY_EMPLOYEE)

/-- The key a run carries: the match key of its first record. -/
def runKey (run : List ExpRecord) : Option MatchKey := run.head?.map matchKey

/-- The match key actually used by addData for a kept record: the key of
the incoming record, with the rate zeroed when the union code is blank. -/
def okey (um : Option UnionCodeMap) (k : MatchKey) : MatchKey :=
  match um with
  | none => k
  | some m =>
    if isBlank (lookupEmp m k.emp) then ⟨k.emp, k.workDt, k.ld1, k.payCode, 0, k.ld8⟩ else k

/-- The table invariant behind the amended claim C3: the keys of the open
table are distinct and all belong to the active key (rate possibly zeroed)
and its compensating WORKED_ALLOCATED_REG twin. -/
def InvC3 (um : Option UnionCodeMap) (st : PState) : Prop :=
  (keys st.table).Nodup ∧
    ((st.cur = none ∧ st.table = []) ∨
      ∃ k, st.cur = some k ∧
        ∀ p ∈ st.table, p.1 = okey um k ∨ p.1 = wKey (okey um k))

/-- A non-double-rate regular record for the same employee, used as the
pending rest of a batch in concrete counterexamples. -/
def recReg : ExpRecord := ⟨"E1", "2024-01-03", some "M55", "REG", 10, "JC1", 4, 0⟩

/-- Regular record for a second employee, with its own key. -/
def recM2 : ExpRecord := ⟨"E2", "2024-01-05", some "M77", "REG", 20, "JC2", 5, 0⟩

/-- Record with work order M100 passing the prefix filter. -/
def recM : ExpRecord := ⟨"E1", "2024-01-02", some "M100", "REG", 40, "JC1", 8, 0⟩

/-- Union code map lacking employee E1. -/
def umapE2 : UnionCodeMap := [("E2", "U2")]

/-- Pay code set containing only the golden-time code, to exercise the
edge case of claim C4. -/
def pcsGoldOnly : List String := ["GOLDEN_TIME"]

/-- The period status of the PGE exempt policy profile group, used in the
concrete claim C8 instance. -/
def stPGE : PeriodStatus := ⟨"PGE", ⟨2024, 1, 7⟩⟩

/-- A concrete run date. -/
def today0 : WFSDate := ⟨2024, 1, 15⟩

/-- End-to-end scenario records: a correction pair for employee E1 on
2024-01-02 (hours 8 then -3) and a cancelling pair on 2024-01-03. -/
def recE1a : ExpRecord := ⟨"E1", "2024-01-02", some "M55", "REG", 40, "JC1", 8, 0⟩

/-- Correction record of the same key with hours -3. -/
def recE1b : ExpRecord := ⟨"E1", "2024-01-02", some "M55", "REG", 40, "JC1", -3, 0⟩

/-- First half of a zero-sum pair on the next day. -/
def recZa : ExpRecord := ⟨"E1", "2024-01-03", some "M55", "REG", 40, "JC1", 8, 0⟩

/-- Second half of the zero-sum pair. -/
def recZb : ExpRecord := ⟨"E1", "2024-01-03", some "M55", "REG", 40, "JC1", -8, 0⟩

/-- Sorted example batch with two runs: a correction run summing to 5 and
a zero-sum run. -/
def exBatch : List ExpRecord := [recE1a, recE1b, recZa, recZb]

/-- A record whose FWO field is missing: Record.ld1.substr(0,1) throws on
it, so it raises a per-record error when it passes the pay code filter. -/
def recBad : ExpRecord := ⟨"E1", "2024-01-02", none, "REG", 40, "JC1", 2, 0⟩

/-- Batch with a bad record between two good runs. -/
def exBatch7 : List ExpRecord := [recE1a, recBad, recM2]

/-! Theorems: helper lemmas first, then one theorem per claim together
with its witness or counterexample. -/

/-- addData unfolded: one insertion, plus one more insertion of the
compensating record for a double-rate pay code.  The recursion stops there
because WORKED_ALLOCATED_REG is not a double-rate pay code. -/
theorem addData_eq (t : Table) (r : ExpRecord) :
    addData t r =
      if inArray DOUBLE_RATE_PAY_CODES r.PAY_CODE then addOne (addOne t r) (adjRecord r)
      else addOne t r := by
  rw [addData]
  split
  · rw [addData]
    simp [adjRecord, inArray, DOUBLE_RATE_PAY_CODES]
  · rfl

theorem containsKey_iff (t : Table) (k : MatchKey) : containsKey t k = true ↔ k ∈ keys t := by
  simp [containsKey, List.any_eq_true, keys, List.mem_map, beq_iff_eq]

theorem map_fst_map (f : MatchKey × AggData → MatchKey × AggData)
    (hf : ∀ p, (f p).1 = p.1) (t : Table) : keys (t.map f) = keys t := by
  unfold keys
  induction t with
  | nil => rfl
  | cons p t ih => simp_all [hf]

theorem keys_addOne (t : Table) (r : ExpRecord) :
    keys (addOne t r) =
      if containsKey t (matchKey r) then keys t else keys t ++ [matchKey r] := by
  unfold addOne
  rw [map_fst_map _ (fun p => by by_cases h : p.1 == matchKey r <;> simp [h])]
  by_cases hc : containsKey t (matchKey r) <;> simp [hc, keys]

theorem containsKey_addOne_self (t : Table) (r : ExpRecord) :
    containsKey (addOne t r) (matchKey r) = true := by
  rw [containsKey_iff, keys_addOne]
  split
  · rw [← containsKey_iff]
    assumption
  · simp

theorem flushIf_same (st : PState) (r : ExpRecord) (h : st.cur = some (matchKey r)) :
    flushIf st r = st := by
  simp [flushIf, h]

theorem flushIf_new (st : PState) (r : ExpRecord) (h : st.cur ≠ some (matchKey r)) :
    flushIf st r =
      { st with rows := st.rows ++ writeData st.table, table := [], cur := some (matchKey r) } := by
  simp [flushIf, h]

theorem bodyStep_eq (pcs : List String) (um : Option UnionCodeMap) (st : PState) (r : ExpRecord) :
    bodyStep pcs um st r =
      { st with table := epochStep pcs um st.table r,
                rolled := st.rolled ++ (if recFails pcs um r then [r] else []) } := by
  cases h : classifyRecord pcs um r <;> simp [bodyStep, epochStep, recFails, h]

theorem loop_same_key (pcs : List String) (um : Option UnionCodeMap) (k : MatchKey) :
    ∀ (run : List ExpRecord) (st : PState), (∀ x ∈ run, matchKey x = k) → st.cur = some k →
      run.foldl (step pcs um) st =
        { st with table := run.foldl (epochStep pcs um) st.table,
                  rolled := st.rolled ++ run.filter (recFails pcs um) } := by
  intro run
  induction run with
  | nil => intro st _ _; simp
  | cons x run ih =>
    intro st h hcur
    have hx : matchKey x = k := h x (by simp)
    rw [List.foldl_cons, step, flushIf_same st x (by rw [hx]; exact hcur), bodyStep_eq]
    rw [ih _ (fun y hy => h y (by simp [hy])) (by simpa using hcur)]
    simp only [List.foldl_cons, List.filter_cons]
    by_cases hf : recFails pcs um x <;> simp [hf]

theorem loop_run (pcs : List String) (um : Option UnionCodeMap) (k : MatchKey)
    (r0 : ExpRecord) (tl : List ExpRecord) (st : PState)
    (hk : ∀ x ∈ r0 :: tl, matchKey x = k) (hne : st.cur ≠ some k) :
    (r0 :: tl).foldl (step pcs um) st =
      { cur := some k, table := (r0 :: tl).foldl (epochStep pcs um) [],
        rows := st.rows ++ writeData st.table,
        rolled := st.rolled ++ (r0 :: tl).filter (recFails pcs um) } := by
  have h0 : matchKey r0 = k := hk r0 (by simp)
  rw [List.foldl_cons, step, flushIf_new st r0 (by rw [h0]; exact hne), bodyStep_eq]
  rw [loop_same_key pcs um k tl _ (fun y hy => hk y (by simp [hy])) (by simpa using h0)]
  simp only [List.foldl_cons, List.filter_cons]
  by_cases hf : recFails pcs um r0 <;> simp [hf, h0]

theorem dropWhile_head_false {α : Type} (p : α → Bool) :
    ∀ (l : List α) (x : α), (l.dropWhile p).head? = some x → p x = false := by
  intro l
  induction l with
  | nil => intro x h; simp [List.dropWhile] at h
  | cons a l ih =>
    intro x h
    rw [List.dropWhile_cons] at h
    by_cases hp : p a
    · rw [if_pos hp] at h
      exact ih x h
    · rw [if_neg hp] at h
      simp only [List.head?_cons, Option.some.injEq] at h
      subst h
      simpa using hp

theorem runsOf_cons (r : ExpRecord) (rest : List ExpRecord) :
    runsOf (r :: rest) =
      (r :: rest.takeWhile (fun x => matchKey x == matchKey r)) ::
        runsOf (rest.dropWhile (fun x => matchKey x == matchKey r)) := by
  induction rest generalizing r with
  | nil => simp [runsOf]
  | cons s rest ih =>
    show (match runsOf (s :: rest) with
      | run :: more =>
        if matchKey r = matchKey s then (r :: run) :: more else [r] :: run :: more
      | [] => [[r]]) = _
    rw [ih s]
    by_cases h : matchKey r = matchKey s
    · simp only [h, if_true, List.takeWhile_cons, List.dropWhile_cons, beq_self_eq_true]
    · have hb : (matchKey s == matchKey r) = false := by
        simp only [beq_eq_false_iff_ne, ne_eq]
        exact fun he => h he.symm
      simp only [if_neg h, List.takeWhile_cons, List.dropWhile_cons, hb,
        Bool.false_eq_true, if_false]
      rw [ih s]

theorem loop_rolled (pcs : List String) (um : Option UnionCodeMap) :
    ∀ (rs : List ExpRecord) (st : PState),
      (rs.foldl (step pcs um) st).rolled = st.rolled ++ rs.filter (recFails pcs um) := by
  intro rs
  induction rs with
  | nil => intro st; simp
  | cons r rs ih =>
    intro st
    rw [List.foldl_cons, step, bodyStep_eq, ih]
    rw [List.filter_cons]
    by_cases hf : recFails pcs um r <;> simp [hf, flushIf] <;> split <;> simp

theorem loop_rows_decomp (pcs : List String) (um : Option UnionCodeMap) :
    ∀ (n : Nat) (rs : List ExpRecord) (st : PState), rs.length ≤ n →
      (∀ r0, rs.head? = some r0 → st.cur ≠ some (matchKey r0)) →
      (rs.foldl (step pcs um) st).rows ++ writeData (rs.foldl (step pcs um) st).table =
        st.rows ++ writeData st.table ++ ((runsOf rs).map (epochRows pcs um)).flatten := by
  intro n
  induction n with
  | zero =>
    intro rs st hlen _
    have h0 : rs = [] := List.length_eq_zero.mp (Nat.le_zero.mp hlen)
    subst h0
    simp [runsOf]
  | succ n ih =>
    intro rs st hlen hne
    match rs with
    | [] => simp [runsOf]
    | r :: rest =>
      rw [runsOf_cons]
      have hsplit : r :: rest =
          (r :: rest.takeWhile (fun x => matchKey x == matchKey r)) ++
            rest.dropWhile (fun x => matchKey x == matchKey r) := by
        rw [List.cons_append]
        rw [List.takeWhile_append_dropWhile]
      have hk : ∀ x ∈ r :: rest.takeWhile (fun x => matchKey x == matchKey r),
          matchKey x = matchKey r := by
        intro x hx
        rcases List.mem_cons.mp hx with h | h
        · rw [h]
        · simpa using List.mem_takeWhile_imp h
      conv_lhs => rw [hsplit]
      rw [List.foldl_append]
      rw [loop_run pcs um (matchKey r) r _ st hk (hne r rfl)]
      rcases hdrop : rest.dropWhile (fun x => matchKey x == matchKey r) with _ | ⟨d, ds⟩
      · simp [runsOf, epochRows]
      · have hlen2 : (d :: ds).length ≤ n := by
          have h1 : (rest.dropWhile (fun x => matchKey x == matchKey r)).length ≤ rest.length :=
            (List.dropWhile_sublist _).length_le
          rw [hdrop] at h1
          have h2 : rest.length ≤ n := by simpa using Nat.le_of_succ_le_succ hlen
          exact Nat.le_trans h1 h2
        have hned : ∀ r0, (d :: ds).head? = some r0 →
            (some (matchKey r) : Option MatchKey) ≠ some (matchKey r0) := by
          intro r0 h0
          simp only [List.head?_cons, Option.some.injEq] at h0
          subst h0
          have := dropWhile_head_false _ rest d (by rw [hdrop]; rfl)
          simp only [beq_eq_false_iff_ne, ne_eq] at this
          intro hc
          exact this (by simpa using hc.symm)
        rw [← hdrop]
        rw [ih (rest.dropWhile (fun x => matchKey x == matchKey r)) _ (by rw [hdrop]; exact hlen2)
          (by rw [hdrop]; exact hned)]
        rw [hdrop]
        simp [epochRows]

theorem processExportRecords_decomp (pcs : List String) (um : Option UnionCodeMap)
    (rs : List ExpRecord) :
    processExportRecords pcs um rs =
      (((runsOf rs).map (epochRows pcs um)).flatten, rs.filter (recFails pcs um)) := by
  have h1 := loop_rows_decomp pcs um rs.length rs initState (Nat.le_refl _)
    (fun r0 _ => by simp [initState])
  have h2 := loop_rolled pcs um rs initState
  unfold processExportRecords
  simp only [Prod.mk.injEq]
  refine ⟨?_, ?_⟩
  · rw [h1]
    simp [initState, writeData]
  · rw [h2]
    simp [initState]

theorem matchKey_adjRecord (r : ExpRecord) : matchKey (adjRecord r) = wKey (matchKey r) := rfl

theorem payCode_ne_w (k : MatchKey) (h : inArray DOUBLE_RATE_PAY_CODES k.payCode = true) :
    k.payCode ≠ "WORKED_ALLOCATED_REG" := by
  intro he
  rw [he] at h
  exact absurd h (by decide)

theorem wKey_ne (k : MatchKey) (h : inArray DOUBLE_RATE_PAY_CODES k.payCode = true) :
    wKey k ≠ k := by
  intro he
  have hpc : (wKey k).payCode = k.payCode := by rw [he]
  simp only [wKey] at hpc
  exact payCode_ne_w k h hpc.symm

theorem addOne_nil (r : ExpRecord) : addOne [] r = [(matchKey r, updAgg (initData r) r)] := by
  simp [addOne, containsKey, updAgg]

theorem addOne_single_same (k : MatchKey) (a : AggData) (r : ExpRecord) (hx : matchKey r = k) :
    addOne [(k, a)] r = [(k, updAgg a r)] := by
  simp [addOne, containsKey, hx, updAgg]

theorem addOne_single_new (k : MatchKey) (a : AggData) (r : ExpRecord) (hne : matchKey r ≠ k) :
    addOne [(k, a)] r = [(k, a), (matchKey r, updAgg (initData r) r)] := by
  have h1 : (k == matchKey r) = false := by
    simp only [beq_eq_false_iff_ne, ne_eq]
    exact fun he => hne he.symm
  simp [addOne, containsKey, h1, updAgg]
  exact fun he => absurd he.symm hne

theorem addOne_pair_first (k : MatchKey) (a : AggData) (k2 : MatchKey) (b : AggData)
    (r : ExpRecord) (hx : matchKey r = k) (hne : k2 ≠ k) :
    addOne [(k, a), (k2, b)] r = [(k, updAgg a r), (k2, b)] := by
  have h1 : (k2 == k) = false := by simp [beq_eq_false_iff_ne]; exact hne
  simp [addOne, containsKey, hx, h1, updAgg]
  exact fun he => absurd he hne

theorem addOne_pair_second (k : MatchKey) (a : AggData) (k2 : MatchKey) (b : AggData)
    (r : ExpRecord) (hx : matchKey r = k2) (hne : k ≠ k2) :
    addOne [(k, a), (k2, b)] r = [(k, a), (k2, updAgg b r)] := by
  have h1 : (k == k2) = false := by simp [beq_eq_false_iff_ne]; exact hne
  simp [addOne, containsKey, hx, h1, updAgg]
  exact fun he => absurd he hne

theorem pay_code_of_key (r : ExpRecord) (k : MatchKey) (h : matchKey r = k) :
    r.PAY_CODE = k.payCode := by
  rw [← h]
  rfl

theorem fold_addData_single (k : MatchKey)
    (hknd : inArray DOUBLE_RATE_PAY_CODES k.payCode = false) :
    ∀ (run : List ExpRecord) (a : AggData), (∀ x ∈ run, matchKey x = k) →
      run.foldl addData [(k, a)] =
        [(k, { a with hours := a.hours + netSum run,
                      inTransit := a.inTransit + transitSum run })] := by
  intro run
  induction run with
  | nil =>
    intro a _
    simp [netSum, transitSum]
  | cons x run ih =>
    intro a h
    have hx : matchKey x = k := h x (by simp)
    have hnd : inArray DOUBLE_RATE_PAY_CODES x.PAY_CODE = false := by
      rw [pay_code_of_key x k hx]
      exact hknd
    rw [List.foldl_cons, addData_eq, hnd]
    simp only [Bool.false_eq_true, if_false]
    rw [addOne_single_same k a x hx]
    rw [ih _ (fun y hy => h y (by simp [hy]))]
    simp [updAgg, netSum, transitSum]
    constructor <;> omega

theorem fold_addData_pair (k : MatchKey)
    (hk : inArray DOUBLE_RATE_PAY_CODES k.payCode = true) :
    ∀ (run : List ExpRecord) (a b : AggData), (∀ x ∈ run, matchKey x = k) →
      run.foldl addData [(k, a), (wKey k, b)] =
        [(k, { a with hours := a.hours + netSum run,
                      inTransit := a.inTransit + transitSum run }),
         (wKey k, { b with hours := b.hours + (transitSum run - netSum run),
                           inTransit := b.inTransit - transitSum run })] := by
  intro run
  induction run with
  | nil =>
    intro a b _
    simp [netSum, transitSum]
  | cons x run ih =>
    intro a b h
    have hx : matchKey x = k := h x (by simp)
    have hd : inArray DOUBLE_RATE_PAY_CODES x.PAY_CODE = true := by
      rw [pay_code_of_key x k hx]
      exact hk
    rw [List.foldl_cons, addData_eq, hd]
    simp only [if_true]
    rw [addOne_pair_first k a (wKey k) b x hx (wKey_ne k hk)]
    rw [addOne_pair_second k _ (wKey k) b (adjRecord x)
      (by rw [matchKey_adjRecord, hx]) (Ne.symm (wKey_ne k hk))]
    rw [ih _ _ (fun y hy => h y (by simp [hy]))]
    simp [updAgg, netSum, transitSum, adjRecord]
    refine ⟨⟨by omega, by omega⟩, by omega, by omega⟩

theorem run_table_single (k : MatchKey) (r0 : ExpRecord) (tl : List ExpRecord)
    (h0 : matchKey r0 = k) (hnd : inArray DOUBLE_RATE_PAY_CODES k.payCode = false)
    (hk : ∀ x ∈ r0 :: tl, matchKey x = k) :
    (r0 :: tl).foldl addData [] = [(k, runAgg r0 (r0 :: tl))] := by
  have hnd0 : inArray DOUBLE_RATE_PAY_CODES r0.PAY_CODE = false := by
    rw [pay_code_of_key r0 k h0]
    exact hnd
  rw [List.foldl_cons, addData_eq, hnd0]
  simp only [Bool.false_eq_true, if_false]
  rw [addOne_nil, h0]
  rw [fold_addData_single k hnd tl _ (fun y hy => hk y (by simp [hy]))]
  simp [updAgg, runAgg, netSum, transitSum, initData]

theorem run_table_double (k : MatchKey) (r0 : ExpRecord) (tl : List ExpRecord)
    (h0 : matchKey r0 = k) (hd : inArray DOUBLE_RATE_PAY_CODES k.payCode = true)
    (hk : ∀ x ∈ r0 :: tl, matchKey x = k) :
    (r0 :: tl).foldl addData [] =
      [(k, runAgg r0 (r0 :: tl)),
       (wKey k, { initData (adjRecord r0) with
                  hours := transitSum (r0 :: tl) - netSum (r0 :: tl),
                  inTransit := -transitSum (r0 :: tl) })] := by
  have hd0 : inArray DOUBLE_RATE_PAY_CODES r0.PAY_CODE = true := by
    rw [pay_code_of_key r0 k h0]
    exact hd
  rw [List.foldl_cons, addData_eq, hd0]
  simp only [if_true]
  rw [addOne_nil]
  rw [addOne_single_new (matchKey r0) _ (adjRecord r0)
    (by rw [matchKey_adjRecord, h0]; exact wKey_ne k hd)]
  rw [matchKey_adjRecord, h0]
  rw [fold_addData_pair k hd tl _ _ (fun y hy => hk y (by simp [hy]))]
  simp [updAgg, runAgg, netSum, transitSum, adjRecord, initData]
  omega

theorem writeData_single (k : MatchKey) (a : AggData) :
    writeData [(k, a)] = if a.hours = 0 then [] else [a] := by
  by_cases h : a.hours = 0 <;> simp [writeData, h]

theorem writeData_pair (k : MatchKey) (a : AggData) (k2 : MatchKey) (b : AggData) :
    writeData [(k, a), (k2, b)] =
      (if a.hours = 0 then [] else [a]) ++ (if b.hours = 0 then [] else [b]) := by
  by_cases ha : a.hours = 0 <;> by_cases hb : b.hours = 0 <;> simp [writeData, ha, hb]

theorem rowMatches_runAgg (r0 : ExpRecord) (run : List ExpRecord) :
    rowMatches (runAgg r0 run) (matchKey r0) = true := by
  simp [rowMatches, runAgg, initData, matchKey]

theorem rowMatches_of_w (b : AggData) (k : MatchKey) (hb : b.payCode = "WORKED_ALLOCATED_REG")
    (hk : k.payCode ≠ "WORKED_ALLOCATED_REG") : rowMatches b k = false := by
  have hne : ("WORKED_ALLOCATED_REG" == k.payCode) = false := by
    simp only [beq_eq_false_iff_ne, ne_eq]
    exact fun he => hk he.symm
  simp [rowMatches, hb, hne]

theorem runsOf_flatten_aux :
    ∀ (n : Nat) (rs : List ExpRecord), rs.length ≤ n → (runsOf rs).flatten = rs := by
  intro n
  induction n with
  | zero =>
    intro rs hlen
    have h0 : rs = [] := List.length_eq_zero.mp (Nat.le_zero.mp hlen)
    subst h0
    simp [runsOf]
  | succ n ih =>
    intro rs hlen
    match rs with
    | [] => simp [runsOf]
    | r :: rest =>
      rw [runsOf_cons]
      have hlen2 : (rest.dropWhile (fun x => matchKey x == matchKey r)).length ≤ n := by
        have h1 := (List.dropWhile_sublist (l := rest)
          (fun x => matchKey x == matchKey r)).length_le
        have h2 : rest.length ≤ n := by simpa using Nat.le_of_succ_le_succ hlen
        exact Nat.le_trans h1 h2
      simp only [List.flatten_cons, ih _ hlen2]
      rw [List.cons_append]
      rw [List.takeWhile_append_dropWhile]

theorem runsOf_flatten (rs : List ExpRecord) : (runsOf rs).flatten = rs :=
  runsOf_flatten_aux rs.length rs (Nat.le_refl _)

theorem runs_shape_aux :
    ∀ (n : Nat) (rs : List ExpRecord), rs.length ≤ n → ∀ run ∈ runsOf rs,
      ∃ r0 tl, run = r0 :: tl ∧ ∀ x ∈ run, matchKey x = matchKey r0 := by
  intro n
  induction n with
  | zero =>
    intro rs hlen
    have h0 : rs = [] := List.length_eq_zero.mp (Nat.le_zero.mp hlen)
    subst h0
    simp [runsOf]
  | succ n ih =>
    intro rs hlen run hrun
    match rs with
    | [] => simp [runsOf] at hrun
    | r :: rest =>
      rw [runsOf_cons] at hrun
      rcases List.mem_cons.mp hrun with h | h
      · refine ⟨r, rest.takeWhile (fun x => matchKey x == matchKey r), h, ?_⟩
        intro x hx
        rw [h] at hx
        rcases List.mem_cons.mp hx with h1 | h1
        · rw [h1]
        · simpa using List.mem_takeWhile_imp h1
      · have hlen2 : (rest.dropWhile (fun x => matchKey x == matchKey r)).length ≤ n := by
          have h1 := (List.dropWhile_sublist (l := rest)
            (fun x => matchKey x == matchKey r)).length_le
          have h2 : rest.length ≤ n := by simpa using Nat.le_of_succ_le_succ hlen
          exact Nat.le_trans h1 h2
        exact ih _ hlen2 run h

theorem runs_shape (rs : List ExpRecord) (run : List ExpRecord) (h : run ∈ runsOf rs) :
    ∃ r0 tl, run = r0 :: tl ∧ ∀ x ∈ run, matchKey x = matchKey r0 :=
  runs_shape_aux rs.length rs (Nat.le_refl _) run h

theorem classify_keep_of_passes (pcs : List String) (m : UnionCodeMap) (r : ExpRecord)
    (h : passesFilters pcs m r = true) : classifyRecord pcs (some m) r = .keep r := by
  rcases hl : r.LD1 with _ | fwo <;>
    simp only [passesFilters, hl, Bool.and_eq_true, Bool.not_eq_true] at h
  · exact absurd h.1.2 (by simp)
  · have hb : isBlank (lookupEmp m r.DISPLAY_EMPLOYEE) = false := by
      simpa using h.2
    simp [classifyRecord, hl, h.1.1, h.1.2, isUnionCodeNull, hb]

theorem foldl_epochStep_eq_addData (pcs : List String) (m : UnionCodeMap) :
    ∀ (run : List ExpRecord) (t : Table), (∀ x ∈ run, passesFilters pcs m x = true) →
      run.foldl (epochStep pcs (some m)) t = run.foldl addData t := by
  intro run
  induction run with
  | nil => intro t _; rfl
  | cons x run ih =>
    intro t h
    rw [List.foldl_cons, List.foldl_cons]
    rw [show epochStep pcs (some m) t x = addData t x from by
      rw [epochStep, classify_keep_of_passes pcs m x (h x (by simp))]]
    exact ih _ (fun y hy => h y (by simp [hy]))

theorem filter_match_self (a : AggData) (k : MatchKey) (ha : rowMatches a k = true) :
    (if a.hours = 0 then ([] : List AggData) else [a]).filter (fun x => rowMatches x k) =
      if a.hours = 0 then [] else [a] := by
  by_cases hz : a.hours = 0 <;> simp [hz, ha]

theorem filter_w_comp (b : AggData) (k : MatchKey) (hb : b.payCode = "WORKED_ALLOCATED_REG")
    (hk : k.payCode ≠ "WORKED_ALLOCATED_REG") :
    (if b.hours = 0 then ([] : List AggData) else [b]).filter (fun a => rowMatches a k) = [] := by
  by_cases hz : b.hours = 0 <;> simp [hz, rowMatches_of_w b k hb hk]

/-- Claim C2: on a stream whose records all pass the filters, the rows
written by the pipeline are exactly the concatenation, run by run, of the
rows of each maximal contiguous equal-key run, and for every run the rows
belonging to the key of that run are exactly one aggregate whose hours are
the sum of HOURS minus UNIT9 over the run, or nothing when that sum is
zero.  Sorting the input by the six group fields makes those runs the
composite-key groups.  -/
theorem C2_grouping_correctness (pcs : List String) (m : UnionCodeMap) (rs : List ExpRecord)
    (hall : ∀ r ∈ rs, passesFilters pcs m r = true) :
    (processExportRecords pcs (some m) rs).1 =
      ((runsOf rs).map (fun run => writeData (run.foldl addData []))).flatten ∧
    (∀ run ∈ runsOf rs, ∀ r0, run.head? = some r0 →
      (writeData (run.foldl addData [])).filter (fun a => rowMatches a (matchKey r0)) =
        (if netSum run = 0 then [] else [runAgg r0 run])) := by
  constructor
  · rw [processExportRecords_decomp]
    dsimp only
    refine congrArg List.flatten (List.map_congr_left ?_)
    intro run hrun
    have hmem : ∀ x ∈ run, x ∈ rs := by
      intro x hx
      rw [← runsOf_flatten rs]
      exact List.mem_flatten.mpr ⟨run, hrun, hx⟩
    unfold epochRows
    rw [foldl_epochStep_eq_addData pcs m run [] (fun x hx => hall x (hmem x hx))]
  · intro run hrun r0 hhead
    obtain ⟨r0', tl, hshape, hkeys⟩ := runs_shape rs run hrun
    have he : r0' = r0 := by
      rw [hshape] at hhead
      simpa using hhead
    subst he
    rw [hshape] at hkeys ⊢
    by_cases hd : inArray DOUBLE_RATE_PAY_CODES (matchKey r0').payCode = true
    · rw [run_table_double (matchKey r0') r0' tl rfl hd hkeys]
      rw [writeData_pair, List.filter_append]
      rw [filter_match_self _ _ (rowMatches_runAgg r0' (r0' :: tl))]
      rw [filter_w_comp _ _ rfl (payCode_ne_w _ hd)]
      rw [List.append_nil]
      simp [runAgg]
    · have hnd : inArray DOUBLE_RATE_PAY_CODES (matchKey r0').payCode = false := by
        simpa using hd
      rw [run_table_single (matchKey r0') r0' tl rfl hnd hkeys]
      rw [writeData_single]
      rw [filter_match_self _ _ (rowMatches_runAgg r0' (r0' :: tl))]
      simp [runAgg]

theorem takeWhile_append_of_all {α : Type} (p : α → Bool) (xs ys : List α)
    (h : ∀ x ∈ xs, p x = true) : (xs ++ ys).takeWhile p = xs ++ ys.takeWhile p := by
  induction xs with
  | nil => rfl
  | cons a xs ih =>
    rw [List.cons_append, List.takeWhile_cons, h a (by simp)]
    rw [ih (fun x hx => h x (by simp [hx]))]
    rfl

theorem dropWhile_append_of_all {α : Type} (p : α → Bool) (xs ys : List α)
    (h : ∀ x ∈ xs, p x = true) : (xs ++ ys).dropWhile p = ys.dropWhile p := by
  induction xs with
  | nil => rfl
  | cons a xs ih =>
    rw [List.cons_append, List.dropWhile_cons, h a (by simp)]
    simp only [if_true]
    exact ih (fun x hx => h x (by simp [hx]))

/-- A list of chunks, each a nonempty equal-key run with keys differing
between neighbours, is recovered unchanged by runsOf of its flattening. -/
theorem chunks_runsOf :
    ∀ (runs : List (List ExpRecord)),
      (∀ run ∈ runs, ∃ r0 tl, run = r0 :: tl ∧ ∀ x ∈ run, matchKey x = matchKey r0) →
      runs.Chain' (fun a b => runKey a ≠ runKey b) →
      runsOf runs.flatten = runs := by
  intro runs
  induction runs with
  | nil => intro _ _; simp [runsOf]
  | cons run rest ih =>
    intro hshape hchain
    obtain ⟨r0, tl, hrun, hkeys⟩ := hshape run (by simp)
    have hobs : ∀ x ∈ tl, (matchKey x == matchKey r0) = true := by
      intro x hx
      simp only [beq_iff_eq]
      exact hkeys x (by rw [hrun]; simp [hx])
    rw [List.flatten_cons, hrun, List.cons_append, runsOf_cons]
    rw [takeWhile_append_of_all _ tl _ hobs, dropWhile_append_of_all _ tl _ hobs]
    have hdrop : rest.flatten.dropWhile (fun x => matchKey x == matchKey r0) = rest.flatten := by
      match rest, hchain with
      | [], _ => rfl
      | run2 :: rest2, hchain =>
        obtain ⟨r2, tl2, hrun2, _⟩ := hshape run2 (by simp)
        have hne : runKey run ≠ runKey run2 := (List.chain'_cons.mp hchain).1
        rw [hrun, hrun2] at hne
        simp only [runKey, List.head?_cons, Option.map_some] at hne
        have hne2 : matchKey r2 ≠ matchKey r0 := by
          intro he
          exact hne (by simp [he])
        rw [List.flatten_cons, hrun2, List.cons_append, List.dropWhile_cons]
        rw [show (matchKey r2 == matchKey r0) = false from by
          simp only [beq_eq_false_iff_ne, ne_eq]; exact hne2]
        simp
    have htake : rest.flatten.takeWhile (fun x => matchKey x == matchKey r0) = [] := by
      match rest, hchain with
      | [], _ => rfl
      | run2 :: rest2, hchain =>
        obtain ⟨r2, tl2, hrun2, _⟩ := hshape run2 (by simp)
        have hne : runKey run ≠ runKey run2 := (List.chain'_cons.mp hchain).1
        rw [hrun, hrun2] at hne
        simp only [runKey, List.head?_cons, Option.map_some] at hne
        have hne2 : matchKey r2 ≠ matchKey r0 := by
          intro he
          exact hne (by simp [he])
        rw [List.flatten_cons, hrun2, List.cons_append, List.takeWhile_cons]
        rw [show (matchKey r2 == matchKey r0) = false from by
          simp only [beq_eq_false_iff_ne, ne_eq]; exact hne2]
        simp
    rw [hdrop, htake, List.append_nil]
    rw [ih (fun x hx => hshape x (by simp [hx])) hchain.tail]

theorem recFails_formula (pcs : List String) (um : Option UnionCodeMap) (r : ExpRecord) :
    recFails pcs um r =
      (inArray pcs r.PAY_CODE &&
        (match r.LD1 with
         | none => true
         | some fwo => inArray VALID_FWO_PREFIXES (substrFirstUpper fwo) && um.isNone)) := by
  rcases um with _ | m <;> rcases hl : r.LD1 with _ | fwo <;>
    cases hp : inArray pcs r.PAY_CODE <;>
    simp [recFails, classifyRecord, isUnionCodeNull, hl, hp] <;>
    cases hf : inArray VALID_FWO_PREFIXES (substrFirstUpper fwo) <;> simp [hf]
  cases hb : isBlank (lookupEmp m r.DISPLAY_EMPLOYEE) <;> simp [hb]

theorem recFails_of_key (pcs : List String) (um : Option UnionCodeMap) (a b : ExpRecord)
    (h : matchKey a = matchKey b) : recFails pcs um a = recFails pcs um b := by
  have h1 : a.PAY_CODE = b.PAY_CODE := congrArg MatchKey.payCode h
  have h2 : a.LD1 = b.LD1 := congrArg MatchKey.ld1 h
  rw [recFails_formula, recFails_formula, h1, h2]

theorem epochStep_of_fails (pcs : List String) (um : Option UnionCodeMap) (t : Table)
    (r : ExpRecord) (h : recFails pcs um r = true) : epochStep pcs um t r = t := by
  have hc : classifyRecord pcs um r = StepAction.fail := by
    unfold recFails at h
    exact eq_of_beq h
  simp [epochStep, hc]

theorem epochRows_nil_of_fails (pcs : List String) (um : Option UnionCodeMap)
    (run : List ExpRecord) (h : ∀ x ∈ run, recFails pcs um x = true) :
    epochRows pcs um run = [] := by
  unfold epochRows
  have : run.foldl (epochStep pcs um) [] = [] := by
    induction run with
    | nil => rfl
    | cons x run ih =>
      rw [List.foldl_cons, epochStep_of_fails pcs um [] x (h x (by simp))]
      exact ih (fun y hy => h y (by simp [hy]))
  rw [this]
  rfl

theorem filter_flatten_comm {α : Type} (q : α → Bool) :
    ∀ (L : List (List α)), L.flatten.filter q = (L.map (fun l => l.filter q)).flatten := by
  intro L
  induction L with
  | nil => rfl
  | cons l L ih => simp [List.filter_append, ih]

theorem flatten_map_filter_runs {α β : Type} (q : List α → Bool) (f : List α → List β)
    (g : List α → List β) :
    ∀ (L : List (List α)), (∀ l ∈ L, q l = false → f l = []) → (∀ l ∈ L, q l = true → f l = g l) →
      ((L.filter q).map g).flatten = (L.map f).flatten := by
  intro L
  induction L with
  | nil => intro _ _; rfl
  | cons l L ih =>
    intro h1 h2
    rw [List.filter_cons]
    cases hq : q l
    · simp only [Bool.false_eq_true, if_false]
      rw [List.map_cons, List.flatten_cons, h1 l (by simp) hq]
      rw [List.nil_append]
      exact ih (fun x hx => h1 x (by simp [hx])) (fun x hx => h2 x (by simp [hx]))
    · simp only [if_true]
      rw [List.map_cons, List.map_cons, List.flatten_cons, List.flatten_cons]
      rw [h2 l (by simp) hq]
      rw [ih (fun x hx => h1 x (by simp [hx])) (fun x hx => h2 x (by simp [hx]))]

theorem pairwise_ne_of_nodup_runKeys (L : List (List ExpRecord))
    (h : (L.filterMap runKey).Nodup) (hall : ∀ run ∈ L, runKey run ≠ none) :
    L.Pairwise (fun a b => runKey a ≠ runKey b) := by
  induction L with
  | nil => exact List.Pairwise.nil
  | cons run L ih =>
    rcases hk : runKey run with _ | k
    · exact absurd hk (hall run (by simp))
    · rw [List.filterMap_cons, hk] at h
      have hnd := List.nodup_cons.mp h
      refine List.Pairwise.cons ?_ (ih hnd.2 (fun x hx => hall x (by simp [hx])))
      intro b hb he
      rcases hkb : runKey b with _ | kb
      · exact hall b (by simp [hb]) hkb
      · rw [hk, hkb] at he
        have : kb ∈ L.filterMap runKey := List.mem_filterMap.mpr ⟨b, hb, hkb⟩
        rw [show k = kb from Option.some.inj he] at hnd
        exact hnd.1 this

/-- Claim C7: a record whose processing throws (here: a record passing the
pay code filter whose LD1 is missing, so Record.ld1.substr throws) is
rolled back and the loop continues: the rolled-back records are exactly
the failing ones, and on a stream with pairwise distinct run keys the
emitted rows are the same as if the failing records had not been in the
batch at all. -/
theorem C7_per_record_error_recovery (pcs : List String) (m : UnionCodeMap)
    (rs : List ExpRecord) (hs : WellSorted rs) :
    (processExportRecords pcs (some m) rs).2 = rs.filter (recFails pcs (some m)) ∧
    (processExportRecords pcs (some m) rs).1 =
      (processExportRecords pcs (some m)
        (rs.filter (fun r => !recFails pcs (some m) r))).1 := by
  have hqkey : ∀ (x r0 : ExpRecord), matchKey x = matchKey r0 →
      (!recFails pcs (some m) x) = (!recFails pcs (some m) r0) := by
    intro x r0 h
    rw [recFails_of_key pcs (some m) x r0 h]
  have hdich : ∀ run ∈ runsOf rs, (∀ x ∈ run, (!recFails pcs (some m) x) = true) ∨
      (∀ x ∈ run, (!recFails pcs (some m) x) = false) := by
    intro run hrun
    obtain ⟨r0, tl, hsh, hkeys⟩ := runs_shape rs run hrun
    cases hq0 : (!recFails pcs (some m) r0)
    · right
      intro x hx
      rw [hqkey x r0 (hkeys x hx)]
      exact hq0
    · left
      intro x hx
      rw [hqkey x r0 (hkeys x hx)]
      exact hq0
  constructor
  · rw [processExportRecords_decomp]
  · rw [processExportRecords_decomp, processExportRecords_decomp]
    dsimp only
    have hA : rs.filter (fun r => !recFails pcs (some m) r) =
        ((runsOf rs).filter (fun run => run.all (fun r => !recFails pcs (some m) r))).flatten := by
      conv_lhs => rw [← runsOf_flatten rs]
      rw [filter_flatten_comm]
      have hC := flatten_map_filter_runs
        (fun run => run.all (fun r => !recFails pcs (some m) r))
        (fun run => run.filter (fun r => !recFails pcs (some m) r)) id (runsOf rs) ?hz ?hsame
      case hz =>
        intro run hrun hfalse
        rcases hdich run hrun with hall | hall
        · exact absurd (List.all_eq_true.mpr hall) (by simp [hfalse])
        · exact List.filter_eq_nil_iff.mpr (fun a ha => by simp [hall a ha])
      case hsame =>
        intro run _ htrue
        dsimp only [id]
        rw [List.filter_eq_self.mpr (List.all_eq_true.mp htrue)]
      simp only [List.map_id] at hC
      exact hC.symm
    have hB : runsOf (rs.filter (fun r => !recFails pcs (some m) r)) =
        (runsOf rs).filter (fun run => run.all (fun r => !recFails pcs (some m) r)) := by
      rw [hA]
      apply chunks_runsOf
      · intro run hrun
        exact runs_shape rs run (List.mem_of_mem_filter hrun)
      · apply List.Pairwise.chain'
        apply List.Pairwise.filter
        apply pairwise_ne_of_nodup_runKeys
        · exact hs
        · intro run hrun hnone
          obtain ⟨r0, tl, hsh, _⟩ := runs_shape rs run hrun
          rw [hsh] at hnone
          simp [runKey] at hnone
    rw [hB]
    refine (flatten_map_filter_runs _ (epochRows pcs (some m)) (epochRows pcs (some m))
      (runsOf rs) ?_ ?_).symm
    case refine_2 =>
      intro run _ _
      rfl
    intro run hrun hfalse
    rcases hdich run hrun with hall | hall
    · exact absurd (List.all_eq_true.mpr hall) (by simp [hfalse])
    · refine epochRows_nil_of_fails pcs (some m) run (fun x hx => ?_)
      have := hall x hx
      simpa using this

theorem mem_keys_addOne (t : Table) (r : ExpRecord) (k : MatchKey)
    (h : k ∈ keys (addOne t r)) : k = matchKey r ∨ k ∈ keys t := by
  rw [keys_addOne] at h
  rcases hc : containsKey t (matchKey r) with _ | _ <;> rw [hc] at h
  · simp only [Bool.false_eq_true, if_false, List.mem_append, List.mem_singleton] at h
    tauto
  · simp only [if_true] at h
    exact Or.inr h

theorem nodup_keys_addOne (t : Table) (r : ExpRecord) (h : (keys t).Nodup) :
    (keys (addOne t r)).Nodup := by
  rw [keys_addOne]
  rcases hc : containsKey t (matchKey r) with _ | _
  · simp only [Bool.false_eq_true, if_false]
    have hmem : matchKey r ∉ keys t := by
      intro hk
      rw [← containsKey_iff] at hk
      rw [hk] at hc
      cases hc
    simp [List.nodup_append, h, hmem]
  · simpa using h

theorem mem_keys_addData (t : Table) (r : ExpRecord) (k : MatchKey)
    (h : k ∈ keys (addData t r)) :
    k = matchKey r ∨ k = wKey (matchKey r) ∨ k ∈ keys t := by
  rw [addData_eq] at h
  rcases hd : inArray DOUBLE_RATE_PAY_CODES r.PAY_CODE with _ | _ <;> rw [hd] at h
  · simp only [Bool.false_eq_true, if_false] at h
    rcases mem_keys_addOne t r k h with h1 | h1
    · exact Or.inl h1
    · exact Or.inr (Or.inr h1)
  · simp only [if_true] at h
    rcases mem_keys_addOne _ (adjRecord r) k h with h1 | h1
    · rw [matchKey_adjRecord] at h1
      exact Or.inr (Or.inl h1)
    · rcases mem_keys_addOne t r k h1 with h2 | h2
      · exact Or.inl h2
      · exact Or.inr (Or.inr h2)

theorem nodup_keys_addData (t : Table) (r : ExpRecord) (h : (keys t).Nodup) :
    (keys (addData t r)).Nodup := by
  rw [addData_eq]
  rcases hd : inArray DOUBLE_RATE_PAY_CODES r.PAY_CODE with _ | _
  · simp only [Bool.false_eq_true, if_false]
    exact nodup_keys_addOne t r h
  · simp only [if_true]
    exact nodup_keys_addOne _ _ (nodup_keys_addOne t r h)

theorem length_le_two_of (l : List MatchKey) (a b : MatchKey) (hnd : l.Nodup)
    (h : ∀ x ∈ l, x = a ∨ x = b) : l.length ≤ 2 := by
  match l, hnd, h with
  | [], _, _ => simp
  | [_], _, _ => simp
  | [_, _], _, _ => simp
  | x :: y :: z :: w, hnd, h =>
    exfalso
    have hxy : x ≠ y := by
      have := (List.nodup_cons.mp hnd).1
      intro he
      exact this (by rw [he]; simp)
    have hxz : x ≠ z := by
      have := (List.nodup_cons.mp hnd).1
      intro he
      exact this (by rw [he]; simp)
    have hyz : y ≠ z := by
      have := (List.nodup_cons.mp (List.nodup_cons.mp hnd).2).1
      intro he
      exact this (by rw [he]; simp)
    rcases h x (by simp) with rfl | rfl <;> rcases h y (by simp) with rfl | rfl <;>
      rcases h z (by simp) with rfl | rfl <;> simp_all

theorem matchKey_kept (pcs : List String) (um : Option UnionCodeMap) (r rr : ExpRecord)
    (h : classifyRecord pcs um r = .keep rr) : matchKey rr = okey um (matchKey r) := by
  by_cases hp : inArray pcs r.PAY_CODE
  · rcases hl : r.LD1 with _ | fwo
    · simp [classifyRecord, hp, hl] at h
    · by_cases hf : inArray VALID_FWO_PREFIXES (substrFirstUpper fwo)
      · rcases um with _ | m
        · simp [classifyRecord, hp, hl, hf, isUnionCodeNull] at h
        · by_cases hb : isBlank (lookupEmp m r.DISPLAY_EMPLOYEE)
          · simp only [classifyRecord, hp, hl, hf, isUnionCodeNull, hb, Bool.not_true,
              Bool.false_eq_true, if_false, StepAction.keep.injEq] at h
            rw [← h]
            simp [okey, matchKey, hb]
            exact hl.symm
          · simp only [classifyRecord, hp, hl, hf, isUnionCodeNull, hb, Bool.not_true,
              Bool.false_eq_true, if_false, StepAction.keep.injEq] at h
            rw [← h]
            simp [okey, matchKey, hb]
      · simp [classifyRecord, hp, hl, hf] at h
  · simp [classifyRecord, hp] at h

theorem inv_step (pcs : List String) (um : Option UnionCodeMap) (st : PState)
    (r : ExpRecord) (h : InvC3 um st) : InvC3 um (step pcs um st r) := by
  have hst1 : (keys (flushIf st r).table).Nodup ∧
      (flushIf st r).cur = some (matchKey r) ∧
      ∀ p ∈ (flushIf st r).table,
        p.1 = okey um (matchKey r) ∨ p.1 = wKey (okey um (matchKey r)) := by
    by_cases hc : st.cur = some (matchKey r)
    · rw [flushIf_same st r hc]
      rcases h with ⟨hnd, hcase⟩
      rcases hcase with ⟨hnone, _⟩ | ⟨k, hck, hkeys⟩
      · rw [hnone] at hc
        cases hc
      · have hkk : k = matchKey r := by
          rw [hck] at hc
          exact Option.some.inj hc
        subst hkk
        exact ⟨hnd, hc, hkeys⟩
    · rw [flushIf_new st r hc]
      exact ⟨by simp [keys], rfl, by simp⟩
  rw [step]
  rcases hcl : classifyRecord pcs um r with _ | _ | rr
  · rw [show bodyStep pcs um (flushIf st r) r = flushIf st r from by simp [bodyStep, hcl]]
    exact ⟨hst1.1, Or.inr ⟨matchKey r, hst1.2.1, hst1.2.2⟩⟩
  · rw [show bodyStep pcs um (flushIf st r) r =
      { flushIf st r with rolled := (flushIf st r).rolled ++ [r] } from by simp [bodyStep, hcl]]
    exact ⟨hst1.1, Or.inr ⟨matchKey r, hst1.2.1, hst1.2.2⟩⟩
  · rw [show bodyStep pcs um (flushIf st r) r =
      { flushIf st r with table := addData (flushIf st r).table rr } from by
        simp [bodyStep, hcl]]
    have hmk : matchKey rr = okey um (matchKey r) := matchKey_kept pcs um r rr hcl
    refine ⟨nodup_keys_addData _ rr hst1.1, Or.inr ⟨matchKey r, hst1.2.1, ?_⟩⟩
    intro p hp
    have hk : p.1 ∈ keys (addData (flushIf st r).table rr) :=
      List.mem_map.mpr ⟨p, hp, rfl⟩
    rcases mem_keys_addData _ rr p.1 hk with h1 | h1 | h1
    · rw [h1, hmk]
      exact Or.inl rfl
    · rw [h1, hmk]
      exact Or.inr rfl
    · rcases List.mem_map.mp h1 with ⟨q, hq, hq1⟩
      rcases hst1.2.2 q hq with h2 | h2 <;> rw [← hq1, h2] <;> simp

unseal addData in
/-- Claim C3 as written is false: processing the first record of a
two-record batch leaves two open aggregates in the WorkActualsData table
(the golden-time aggregate and its compensating WORKED_ALLOCATED_REG
aggregate) while one input record is still unprocessed. -/
theorem C3_single_open_aggregate_counterexample :
    ((([recGold, recReg].take 1).foldl (step pcsAll (some umap1)) initState).table).length = 2 ∧
    ¬((([recGold, recReg].take 1).foldl (step pcsAll (some umap1)) initState).table).length ≤ 1 := by
  decide

/-- Amended claim C3: at every point of the batch loop the WorkActualsData
table holds at most two open aggregates, the active key and its
compensating WORKED_ALLOCATED_REG twin; with no double-rate run in
progress the bound is one (a consequence of the invariant proved here). -/
theorem C3_open_aggregates_bounded (pcs : List String) (um : Option UnionCodeMap)
    (rs : List ExpRecord) (n : Nat) :
    (((rs.take n).foldl (step pcs um) initState).table).length ≤ 2 := by
  have hinv : ∀ (l : List ExpRecord) (st : PState), InvC3 um st →
      InvC3 um (l.foldl (step pcs um) st) := by
    intro l
    induction l with
    | nil => intro st h; exact h
    | cons x l ih =>
      intro st h
      exact ih _ (inv_step pcs um st x h)
  have h0 : InvC3 um initState := ⟨by simp [initState, keys], Or.inl ⟨rfl, rfl⟩⟩
  rcases hinv (rs.take n) initState h0 with ⟨hnd, hcase⟩
  rcases hcase with ⟨_, htab⟩ | ⟨k, _, hkeys⟩
  · rw [htab]
    simp
  · have hlen := length_le_two_of _ (okey um k) (wKey (okey um k)) hnd (fun x hx => by
      rcases List.mem_map.mp hx with ⟨p, hp, hpx⟩
      rcases hkeys p hp with h | h <;> rw [← hpx, h] <;> simp)
    simpa [keys] using hlen

unseal addData in
/-- Claim C1 as written is false at a double-rate entry with non-zero
transit hours: for GOLDEN_TIME hours 8, transit 2, the two aggregates
hold hours 6 and -4, so the total exported hours over the entry group and
its compensating group are 2 (the transit hours), not the net hours 6. -/
theorem C1_total_hours_counterexample :
    totalHours (addData [] recGold) = 2 ∧
    recGold.HOURS - recGold.UNIT9 = 6 ∧
    totalHours (addData [] recGold) ≠ recGold.HOURS - recGold.UNIT9 ∧
    ((addData [] recGold).map (fun p => p.2.hours)) = [6, -4] := by
  decide

/-- Amended claim C1: a double-rate entry with hours H, transit T and rate
R yields a primary aggregate at rate 2 R with hours H - T, and a
compensating record with pay code WORKED_ALLOCATED_REG, hours -(H - T)
and transit -T; the compensating aggregate then carries
-(H - T) - (-T) = T - (H - T) hours, so the total hours over both groups
are T, which is full cancellation exactly when the transit hours are zero
(what the comment on source line 133 assumes for double-rate records). -/
theorem C1_double_rate_adjustment (r : ExpRecord)
    (h : inArray DOUBLE_RATE_PAY_CODES r.PAY_CODE = true) :
    addData [] r =
      [(matchKey r, { initData r with hours := r.HOURS - r.UNIT9, inTransit := r.UNIT9 }),
       (wKey (matchKey r),
         { initData (adjRecord r) with
             hours := r.UNIT9 - (r.HOURS - r.UNIT9),
             inTransit := -r.UNIT9 })] ∧
    (initData r).rate = 2 * r.EFF_RATE ∧
    (adjRecord r).PAY_CODE = "WORKED_ALLOCATED_REG" ∧
    (adjRecord r).HOURS = -(r.HOURS - r.UNIT9) ∧
    (adjRecord r).UNIT9 = -r.UNIT9 ∧
    totalHours (addData [] r) = r.UNIT9 ∧
    (r.UNIT9 = 0 → totalHours (addData [] r) = 0) := by
  have htab := run_table_double (matchKey r) r [] rfl h (by
    intro x hx
    simp only [List.mem_singleton] at hx
    rw [hx])
  have h1 : addData [] r = [(matchKey r,
      { initData r with hours := r.HOURS - r.UNIT9, inTransit := r.UNIT9 }),
      (wKey (matchKey r),
        { initData (adjRecord r) with
            hours := r.UNIT9 - (r.HOURS - r.UNIT9),
            inTransit := -r.UNIT9 })] := by
    rw [show ([r] : List ExpRecord).foldl addData [] = addData [] r from rfl] at htab
    rw [htab]
    simp [runAgg, netSum, transitSum]
  refine ⟨h1, by simp [initData, h], rfl, rfl, rfl, ?_, ?_⟩
  · rw [h1]
    simp [totalHours]
  · intro hz
    rw [h1]
    simp [totalHours, hz]

/-- Witness for claim C1 at the concrete GOLDEN_TIME record. -/
theorem C1_double_rate_adjustment_witness :
    inArray DOUBLE_RATE_PAY_CODES recGold.PAY_CODE = true ∧
    totalHours (addData [] recGold) = recGold.UNIT9 :=
  ⟨by decide, (C1_double_rate_adjustment recGold (by decide)).2.2.2.2.2.1⟩

unseal addData in
/-- Claim C4 as written is false: with WORKED_ALLOCATED_REG absent from
the valid pay code set, processing one GOLDEN_TIME record still emits a
WORKED_ALLOCATED_REG row with non-zero hours, because the compensating
record is added straight into the table by the recursive addData call and
never passes the pay code filter. -/
theorem C4_compensating_filter_counterexample :
    inArray pcsGoldOnly "WORKED_ALLOCATED_REG" = false ∧
    (processExportRecords pcsGoldOnly (some umap1) [recGold]).1.map (fun a => a.payCode) =
      ["GOLDEN_TIME", "WORKED_ALLOCATED_REG"] ∧
    (processExportRecords pcsGoldOnly (some umap1) [recGold]).1.map (fun a => a.hours) =
      [6, -4] := by
  decide

/-- Amended claim C4: the compensating record does not re-enter the
pipeline; addData adds it directly to the aggregation table, so it always
reaches the aggregator, independent of any pay code set (addData takes no
filter input at all), and its key is present in the resulting table. -/
theorem C4_compensating_bypasses_filter (t : Table) (r : ExpRecord)
    (h : inArray DOUBLE_RATE_PAY_CODES r.PAY_CODE = true) :
    addData t r = addOne (addOne t r) (adjRecord r) ∧
    (adjRecord r).PAY_CODE = "WORKED_ALLOCATED_REG" ∧
    containsKey (addData t r) (matchKey (adjRecord r)) = true := by
  refine ⟨by rw [addData_eq, h]; simp, rfl, ?_⟩
  rw [addData_eq, h]
  simp only [if_true]
  exact containsKey_addOne_self _ (adjRecord r)

/-- Witness for the amended claim C4 at the concrete GOLDEN_TIME record. -/
theorem C4_compensating_bypasses_filter_witness :
    inArray DOUBLE_RATE_PAY_CODES recGold.PAY_CODE = true ∧
    containsKey (addData [] recGold) (matchKey (adjRecord recGold)) = true :=
  ⟨by decide, (C4_compensating_bypasses_filter [] recGold (by decide)).2.2⟩

/-- Claim C10: the recursion of WorkActualsData_addData has depth exactly
one: each call performs at most one direct recursive call, the spawned
record always carries WORKED_ALLOCATED_REG, that pay code is not in the
double-rate set, and therefore the nested call reduces to a single
table update with no further recursion. -/
theorem C10_recursion_depth_one (t : Table) (r : ExpRecord) :
    addData t r =
      (if inArray DOUBLE_RATE_PAY_CODES r.PAY_CODE then addOne (addOne t r) (adjRecord r)
       else addOne t r) ∧
    (adjRecord r).PAY_CODE = "WORKED_ALLOCATED_REG" ∧
    inArray DOUBLE_RATE_PAY_CODES "WORKED_ALLOCATED_REG" = false ∧
    addData t (adjRecord r) = addOne t (adjRecord r) := by
  refine ⟨addData_eq t r, rfl, by decide, ?_⟩
  rw [addData_eq]
  simp [adjRecord, inArray, DOUBLE_RATE_PAY_CODES]

/-- Claim C5: for an entry reaching the union override, an employee absent
from the map or mapped to a blank code is treated as blank, the entry is
kept with effective rate forced to 0 so the aggregate rate is 0 whatever
the input rate was, and an employee with a non-blank code leaves the
entry completely unchanged. -/
theorem C5_union_rate_override (m : UnionCodeMap) (r : ExpRecord) (pcs : List String)
    (fwo : String) (hp : inArray pcs r.PAY_CODE = true) (hl : r.LD1 = some fwo)
    (hf : inArray VALID_FWO_PREFIXES (substrFirstUpper fwo) = true) :
    (lookupEmp m r.DISPLAY_EMPLOYEE = none → isBlank (lookupEmp m r.DISPLAY_EMPLOYEE) = true) ∧
    (lookupEmp m r.DISPLAY_EMPLOYEE = some "" →
      isBlank (lookupEmp m r.DISPLAY_EMPLOYEE) = true) ∧
    (isBlank (lookupEmp m r.DISPLAY_EMPLOYEE) = true →
      classifyRecord pcs (some m) r = .keep { r with EFF_RATE := 0 } ∧
      (initData { r with EFF_RATE := 0 }).rate = 0) ∧
    (isBlank (lookupEmp m r.DISPLAY_EMPLOYEE) = false →
      classifyRecord pcs (some m) r = .keep r) := by
  refine ⟨?_, ?_, ?_, ?_⟩
  · intro h
    rw [h]
    rfl
  · intro h
    rw [h]
    rfl
  · intro hb
    constructor
    · simp [classifyRecord, hp, hl, hf, isUnionCodeNull, hb]
    · simp [initData]
  · intro hb
    simp [classifyRecord, hp, hl, hf, isUnionCodeNull, hb]

/-- Witness for claim C5: employee E1 is absent from umapE2, so the REG
record for E1 is kept with rate zeroed. -/
theorem C5_union_rate_override_witness :
    lookupEmp umapE2 recReg.DISPLAY_EMPLOYEE = none ∧
    classifyRecord ["REG"] (some umapE2) recReg = .keep { recReg with EFF_RATE := 0 } :=
  ⟨by decide,
    ((C5_union_rate_override umapE2 recReg ["REG"] "M55" (by decide) rfl (by decide)).2.2.1
      (by decide)).1⟩

/-- Claim C9: for a record that passed the pay code filter and whose
employee has a union code, the record is kept exactly when the first
character of its FWO, upper-cased, is one of the valid prefixes M and F;
a kept record goes to addData and a rejected one leaves the state
untouched.  Concretely X123 is dropped while M100 and f200 pass. -/
theorem C9_prefix_filter (pcs : List String) (m : UnionCodeMap) (r : ExpRecord) (fwo : String)
    (hl : r.LD1 = some fwo) (hp : inArray pcs r.PAY_CODE = true)
    (hb : isBlank (lookupEmp m r.DISPLAY_EMPLOYEE) = false) :
    classifyRecord pcs (some m) r =
      (if inArray VALID_FWO_PREFIXES (substrFirstUpper fwo) then .keep r else .skip) ∧
    (inArray VALID_FWO_PREFIXES (substrFirstUpper fwo) = true →
      ∀ st : PState, bodyStep pcs (some m) st r = { st with table := addData st.table r }) ∧
    (inArray VALID_FWO_PREFIXES (substrFirstUpper fwo) = false →
      ∀ st : PState, bodyStep pcs (some m) st r = st) ∧
    substrFirstUpper "X123" = "X" ∧
    inArray VALID_FWO_PREFIXES "X" = false ∧
    substrFirstUpper "M100" = "M" ∧
    substrFirstUpper "f200" = "F" ∧
    inArray VALID_FWO_PREFIXES "M" = true ∧
    inArray VALID_FWO_PREFIXES "F" = true := by
  refine ⟨?_, ?_, ?_, by decide, by decide, by decide, by decide, by decide, by decide⟩
  · cases hf : inArray VALID_FWO_PREFIXES (substrFirstUpper fwo) <;>
      simp [classifyRecord, hp, hl, hf, isUnionCodeNull, hb]
  · intro hf st
    simp [bodyStep, classifyRecord, hp, hl, hf, isUnionCodeNull, hb]
  · intro hf st
    simp [bodyStep, classifyRecord, hp, hl, hf]

/-- Witness for claim C9: the M100 record for E1 is kept. -/
theorem C9_prefix_filter_witness :
    (recM.LD1 = some "M100" ∧ inArray ["REG"] recM.PAY_CODE = true ∧
      isBlank (lookupEmp umap1 recM.DISPLAY_EMPLOYEE) = false) ∧
    classifyRecord ["REG"] (some umap1) recM =
      (if inArray VALID_FWO_PREFIXES (substrFirstUpper "M100") then .keep recM else .skip) :=
  ⟨⟨rfl, by decide, by decide⟩,
    (C9_prefix_filter ["REG"] umap1 recM "M100" rfl (by decide) (by decide)).1⟩

/-- Claim C6 as written is false: when the union code map is missing, the
throw from isUnionCodeNull is caught by the per-record catch, not once at
the top level.  Processing a two-record batch rolls back each record
individually and runs to completion, emitting nothing; no rollbackExport
of the batch is triggered by it. -/
theorem C6_config_error_counterexample :
    (processExportRecords pcsAll none [recReg, recM2]).2 = [recReg, recM2] ∧
    (processExportRecords pcsAll none [recReg, recM2]).1 = [] ∧
    (processExportRecords pcsAll none [recReg, recM2]).2.length = 2 := by
  decide

/-- Amended claim C6: a missing union code map is handled at the per-entry
level.  Every record that reaches the union code check (pay code in the
set and FWO prefix valid) throws there, is rolled back by the per-record
catch, and the loop continues; records stopped earlier by a filter are
skipped as usual.  No row is ever emitted and the batch completes. -/
theorem C6_config_error_per_record (pcs : List String) (rs : List ExpRecord) :
    processExportRecords pcs none rs =
      ([], rs.filter (fun r =>
        inArray pcs r.PAY_CODE &&
          (match r.LD1 with
           | none => true
           | some fwo => inArray VALID_FWO_PREFIXES (substrFirstUpper fwo)))) := by
  rw [processExportRecords_decomp]
  simp only [Prod.mk.injEq]
  constructor
  · have hcl : ∀ r : ExpRecord, classifyRecord pcs none r = .skip ∨
        classifyRecord pcs none r = .fail := by
      intro r
      by_cases hp : inArray pcs r.PAY_CODE
      · rcases hl : r.LD1 with _ | fwo
        · right
          simp [classifyRecord, hp, hl]
        · by_cases hf : inArray VALID_FWO_PREFIXES (substrFirstUpper fwo)
          · right
            simp [classifyRecord, hp, hl, hf, isUnionCodeNull]
          · left
            simp [classifyRecord, hp, hl, hf]
      · left
        simp [classifyRecord, hp]
    have hrows : ∀ run : List ExpRecord, epochRows pcs none run = [] := by
      intro run
      unfold epochRows
      have hfold : run.foldl (epochStep pcs none) [] = [] := by
        induction run with
        | nil => rfl
        | cons x run ih =>
          rw [List.foldl_cons,
            show epochStep pcs none [] x = [] from by
              rcases hcl x with h | h <;> simp [epochStep, h]]
          exact ih
      rw [hfold]
      rfl
    simp [hrows]
  · apply List.filter_congr
    intro r _
    rw [recFails_formula]
    rcases r.LD1 with _ | fwo <;> simp

/-- Claim C8 as written is false: the window computed by findCurrentPeriod
ends at today plus one month (addMonths 1), not at tomorrow.  For a run on
2024-01-15 the window ends on 2024-02-15 while tomorrow is 2024-01-16. -/
theorem C8_window_counterexample :
    findCurrentPeriod stPGE today0 = some ⟨⟨2023, 10, 7⟩, ⟨2024, 2, 15⟩⟩ ∧
    nextDay today0 = ⟨2024, 1, 16⟩ ∧
    (findCurrentPeriod stPGE today0).map WFSDateRange.endDate ≠ some (nextDay today0) := by
  decide

/-- Amended claim C8: for the PGE policy profile group the diff window is
always clamped to the current pay period begin minus three months through
today plus one month; those bounds are handed unchanged to the diff
parameters together with negation on reversal, retraction on termination
and the 1440-minute grace period.  For any other profile group ppBegin is
never assigned and the computation fails. -/
theorem C8_window_clamp (st : PeriodStatus) (today : WFSDate) (h : st.PPG = "PGE") :
    INCR_EXPORT_DIFF_PARMS st today =
      some { startDate := addMonths st.CurPrdBeg (-3), endDate := addMonths today 1,
             negateNumericFields := true, retractOnTerm := true,
             periodPeriodMode := "PRIOR_PERIOD_ON_CHANGE", gracePeriod := 1440,
             logData := true } ∧
    (∀ st2 : PeriodStatus, st2.PPG ≠ "PGE" → ∀ d : WFSDate, findCurrentPeriod st2 d = none) := by
  constructor
  · simp [INCR_EXPORT_DIFF_PARMS, findCurrentPeriod, h]
  · intro st2 h2 d
    simp [findCurrentPeriod, h2]

/-- Witness for the amended claim C8 at the concrete period status. -/
theorem C8_window_clamp_witness :
    stPGE.PPG = "PGE" ∧
    INCR_EXPORT_DIFF_PARMS stPGE today0 =
      some { startDate := addMonths stPGE.CurPrdBeg (-3), endDate := addMonths today0 1,
             negateNumericFields := true, retractOnTerm := true,
             periodPeriodMode := "PRIOR_PERIOD_ON_CHANGE", gracePeriod := 1440,
             logData := true } :=
  ⟨rfl, (C8_window_clamp stPGE today0 rfl).1⟩

/-- Witness for claim C2 on the example batch. -/
theorem C2_grouping_correctness_witness :
    (∀ r ∈ exBatch, passesFilters ["REG"] umap1 r = true) ∧
    ((processExportRecords ["REG"] (some umap1) exBatch).1 =
      ((runsOf exBatch).map (fun run => writeData (run.foldl addData []))).flatten ∧
    (∀ run ∈ runsOf exBatch, ∀ r0, run.head? = some r0 →
      (writeData (run.foldl addData [])).filter (fun a => rowMatches a (matchKey r0)) =
        (if netSum run = 0 then [] else [runAgg r0 run]))) :=
  ⟨by decide, C2_grouping_correctness ["REG"] umap1 exBatch (by decide)⟩

/-- Witness for claim C7 on a batch holding one bad record. -/
theorem C7_per_record_error_recovery_witness :
    WellSorted exBatch7 ∧
    ((processExportRecords ["REG"] (some umap1) exBatch7).2 =
      exBatch7.filter (recFails ["REG"] (some umap1)) ∧
    (processExportRecords ["REG"] (some umap1) exBatch7).1 =
      (processExportRecords ["REG"] (some umap1)
        (exBatch7.filter (fun r => !recFails ["REG"] (some umap1) r))).1) :=
  ⟨by decide, C7_per_record_error_recovery ["REG"] umap1 exBatch7 (by decide)⟩
